import Mathlib

/-!
Verification of a small symbolic-reasoning toolkit consisting of three
propositional inference engines:

* `PropDeduction` — literal negation, clause resolution, and a
  saturation-based entailment checker (`PropDeduction.py`);
* `Horn` — backward-chaining Horn-clause abduction with
  inclusion-minimality pruning and a cost-minimizing wrapper
  (`PropHornClauseAbduction.py`, `PropInductionwCostMin.py`);
* `Foil` — a FOIL-style greedy rule learner (`PropInduction.py`).

Python strings are modelled as lists of characters where character surgery
matters (literal negation), and as `String` elsewhere (only equality is
used).  Python `set`/`frozenset` become `Finset`; Python lists become
`List`.  Python exceptions are modelled with `Except String`.
-/

namespace PropDeduction

/-- A propositional literal, as in the source a character string; `~` as the
first character marks negation.  Python `str` is modelled as `List Char`
(Python indexes strings by character). -/
abbrev DLit := List Char

/-- A clause: a `frozenset` of literals. -/
abbrev Clause := Finset DLit

/-- `negate(literal)`: `literal[1:] if literal.startswith('~') else '~' + literal`. -/
def negate : DLit → DLit
  | '~' :: rest => rest
  | l => '~' :: l

/-- The spec's data model: a literal is an atom name optionally carrying
exactly one leading negation marker, never double-negated.  Encoded as: the
literal does not begin with two negation markers. -/
def CanonicalLit (l : DLit) : Prop := l.take 2 ≠ ['~', '~']

instance : DecidablePred CanonicalLit := fun l =>
  inferInstanceAs (Decidable (l.take 2 ≠ ['~', '~']))

/-- `resolve(ci, cj)`: for each literal `l ∈ ci` with `negate l ∈ cj`,
produce `(ci ∪ cj) \ {l, negate l}`.  The Python function returns a list of
resolvents; only membership matters downstream, so the collection of
resolvents is modelled as a `Finset`. -/
def resolve (ci cj : Clause) : Finset Clause :=
  (ci.filter (fun l => negate l ∈ cj)).image (fun l => (ci ∪ cj) \ {l, negate l})

/-- All resolvents of all ordered pairs of *distinct* clauses of `cs`:
`pairs = [(ci, cj) for ci in clauses for cj in clauses if ci != cj]`
followed by `resolve(ci, cj)` on every pair. -/
def resolventsOf (cs : Finset Clause) : Finset Clause :=
  cs.biUnion (fun ci => cs.biUnion (fun cj => if ci = cj then ∅ else resolve ci cj))

/-- The union of all literals occurring in a clause set.  Every clause ever
produced by the saturation loop lives inside the powerset of this set. -/
def litUniv (cs : Finset Clause) : Finset DLit := cs.biUnion id

/-- An upper bound on the number of saturation rounds: the working set grows
strictly inside the powerset of its (invariant) literal universe, so
`|powerset| + 1 - |cs|` rounds always suffice. -/
def satMeasure (cs : Finset Clause) : ℕ := (litUniv cs).powerset.card + 1 - cs.card

/-- The `while True` saturation loop of `resolution_entails`, with an explicit
round counter `fuel`.  Each round resolves every pair of distinct clauses;
an empty resolvent returns `true`; if no new clause appeared the loop
returns `false`; otherwise the resolvents are merged and the loop repeats.
(The Python `new` set accumulates across rounds but is merged into `clauses`
at the end of every round, so its subset test is exactly
`resolventsOf cs ⊆ cs`.)  `satMeasure` rounds are always enough, so the
fuel is an artifact of the embedding, not of the algorithm. -/
def saturateF : ℕ → Finset Clause → Bool
  | 0, _ => false
  | fuel + 1, cs =>
    let res := resolventsOf cs
    if (∅ : Clause) ∈ res then true
    else if res ⊆ cs then false
    else saturateF fuel (cs ∪ res)

/-- `resolution_entails(kb, query)`: add the negated query as a unit clause
and saturate. -/
def resolution_entails (kb : Finset Clause) (query : DLit) : Bool :=
  saturateF (satMeasure (insert {negate query} kb)) (insert {negate query} kb)

/-- Clauses derivable from `init` by repeated resolution of distinct clauses. -/
inductive Derivable (init : Finset Clause) : Clause → Prop where
  | base {c : Clause} : c ∈ init → Derivable init c
  | step {ci cj r : Clause} : Derivable init ci → Derivable init cj → ci ≠ cj →
      r ∈ resolve ci cj → Derivable init r

/-- The saturation loop succeeds exactly when the empty clause is a resolvent
of two distinct derivable clauses. -/
def DerivesEmpty (cs : Finset Clause) : Prop :=
  ∃ ci cj : Clause, Derivable cs ci ∧ Derivable cs cj ∧ ci ≠ cj ∧
    (∅ : Clause) ∈ resolve ci cj

end PropDeduction

namespace Horn

/-- A definite clause of the form `head :- body1, body2, ...`. -/
structure HornClause where
  head : String
  body : List String

/-- All atom names occurring in a Horn knowledge base (heads and bodies).
Used only to bound the recursion depth of `abduce`. -/
def atomsOf (kb : List HornClause) : Finset String :=
  kb.foldr (fun c s => insert c.head s ∪ c.body.toFinset) ∅

/-- Step 3 of `abduce`: keep exactly the candidates that have no strict
subset among the candidates
(`if not any(other < e for other in explanations): minimal.append(e)`). -/
def pruneMin (explanations : List (Finset String)) : List (Finset String) :=
  explanations.filter (fun e => !(explanations.any (fun other => decide (other ⊂ e))))

/-- `itertools.product(*sub_expls)`: all choices of one explanation per body
literal, leftmost literal varying slowest. -/
def listProd : List (List (Finset String)) → List (List (Finset String))
  | [] => [[]]
  | xs :: rest => (xs.map (fun x => (listProd rest).map (fun combo => x :: combo))).flatten

/-- `abduce(goal, kb, abducibles, seen)` with an explicit recursion-depth
counter `fuel`.  The Python recursion terminates because `seen` grows by one
known atom on every nested call, so a fuel of one more than the number of
atoms (supplied by the `abduce` wrapper below) is never exhausted; the fuel
is an artifact of the embedding.  If the goal is in `seen` the branch is cut;
a goal in `abducibles` yields the direct explanation `{goal}`; every clause
whose head is the goal contributes the unions of one explanation per body
literal (skipped if some body literal has none); finally non-minimal
candidates are pruned. -/
def abduceF (kb : List HornClause) (ab : Finset String) :
    ℕ → String → Finset String → List (Finset String)
  | 0, _, _ => []
  | fuel + 1, goal, seen =>
    if goal ∈ seen then []
    else
      let seen2 := insert goal seen
      let direct := if goal ∈ ab then [({goal} : Finset String)] else []
      let clausal := kb.map (fun c =>
        if c.head = goal then
          let subs := c.body.map (fun b => abduceF kb ab fuel b seen2)
          if subs.any (fun exs => exs.isEmpty) then []
          else (listProd subs).map (fun combo => combo.foldl (fun s t => s ∪ t) ∅)
        else [])
      pruneMin (direct ++ clausal.flatten)

/-- `abduce(goal, kb, abducibles)` with the default `seen = set()`. -/
def abduce (goal : String) (kb : List HornClause) (ab : Finset String) :
    List (Finset String) :=
  abduceF kb ab ((insert goal (atomsOf kb)).card + 1) goal ∅

/-- `cost.get(a, float('inf'))`: a missing atom costs infinity, modelled in
the extended rationals `WithTop ℚ` (floats idealized as exact numbers). -/
def atomCost (cost : String → Option ℚ) (a : String) : WithTop ℚ :=
  match cost a with
  | some c => (c : WithTop ℚ)
  | none => ⊤

/-- `sum(cost.get(a, float('inf')) for a in expl)`. -/
def totalCost (cost : String → Option ℚ) (e : Finset String) : WithTop ℚ :=
  e.sum (atomCost cost)

/-- `abduce_min_cost(goal, kb, abducibles, cost)`: score each inclusion-minimal
explanation by its total cost and return exactly those achieving the minimum
(`[] if not scored`, else `min` over the scores and a filter on equality). -/
def abduce_min_cost (goal : String) (kb : List HornClause) (ab : Finset String)
    (cost : String → Option ℚ) : List (Finset String) :=
  match (abduce goal kb ab).map (fun e => (totalCost cost e, e)) with
  | [] => []
  | s0 :: rest =>
    let mc := rest.foldl (fun m p => min m p.1) s0.1
    ((s0 :: rest).filter (fun p => decide (p.1 = mc))).map Prod.snd

end Horn

namespace Foil

/-- A ground example: a `(predicate, constant)` pair such as `("Fly", "tweety")`. -/
abbrev FEx := String × String

/-- A candidate body literal: a `(predicate, variable)` pair such as `("Bird", "X")`. -/
abbrev FLit := String × String

/-- A learned rule `(head_predicate, variable, body_literals)`. -/
abbrev Rule := String × String × List FLit

/-- `foil_gain(p, n, p1, n1)`.  `math.log2` raises `ValueError: math domain
error` on a nonpositive argument; past the `p == 0 or p1+n1 == 0` guard the
only such case is `p1 = 0` (then `p1/(p1+n1) = 0`, while `p/(p+n) > 0`
because `p ≠ 0`), so that case is the error case.  Floats are idealized as
real numbers, exceptions as `Except.error`. -/
noncomputable def foil_gain (p n p1 n1 : ℕ) : Except String ℝ :=
  if p = 0 ∨ p1 + n1 = 0 then .ok 0
  else if p1 = 0 then .error "math domain error"
  else .ok ((p1 : ℝ) * (Real.logb 2 ((p1 : ℝ) / ((p1 : ℝ) + (n1 : ℝ))) -
      Real.logb 2 ((p : ℝ) / ((p : ℝ) + (n : ℝ)))))

open Classical in
/-- The candidate scan inside the literal-selection loop of `learn_rules`:
for every remaining predicate, filter the covered examples through the
candidate literal, score with `foil_gain`, and keep the strictly best state
`(best_gain, best_literal, best_pos_cover, best_neg_cover)`; an error from
`foil_gain` aborts the whole computation like a Python exception. -/
noncomputable def bestLiteral (background : Finset FEx) (p n : ℕ)
    (pos_cover neg_cover : List FEx) :
    List String → ℝ × Option FLit × List FEx × List FEx →
      Except String (ℝ × Option FLit × List FEx × List FEx)
  | [], st => .ok st
  | pred :: rest, st =>
    let new_pos := pos_cover.filter (fun e => decide ((pred, e.2) ∈ background))
    let new_neg := neg_cover.filter (fun e => decide ((pred, e.2) ∈ background))
    match foil_gain p n new_pos.length new_neg.length with
    | .error msg => .error msg
    | .ok gain =>
      bestLiteral background p n pos_cover neg_cover rest
        (if gain > st.1 then (gain, some (pred, "X"), new_pos, new_neg) else st)

/-- The `while neg_cover:` literal-selection loop: stop when no negatives are
covered, otherwise scan the predicates not yet in the body; if no candidate
has strictly positive gain the rule is accepted as-is, else the chosen
literal is appended and the covered sets narrowed.  The loop adds a fresh
predicate to the body each time, so `predicates.length + 1` iterations
(supplied by `outerLoop`) always suffice; `fuel` is an embedding artifact. -/
noncomputable def innerLoop (background : Finset FEx) (predicates : List String) :
    ℕ → List FLit → List FEx → List FEx → Except String (List FLit)
  | 0, _, _, _ => .error "fuel"
  | fuel + 1, body, pos_cover, neg_cover =>
    if neg_cover.isEmpty then .ok body
    else
      match bestLiteral background pos_cover.length neg_cover.length pos_cover neg_cover
          (predicates.filter (fun pr => !(body.map Prod.fst).contains pr))
          (0, none, [], []) with
      | .error msg => .error msg
      | .ok (_, none, _, _) => .ok body
      | .ok (_, some lit, bp, bn) =>
        innerLoop background predicates fuel (body ++ [lit]) bp bn

/-- The `while pos_examples:` sequential-covering loop of `learn_rules`:
build one rule for the head predicate of the first uncovered positive,
record it, and drop every positive covered by the finished rule.  Each
round removes at least one positive, so `pos.length + 1` rounds (supplied
by `learn_rules`) always suffice; `fuel` is an embedding artifact. -/
noncomputable def outerLoop (neg : List FEx) (background : Finset FEx)
    (predicates : List String) : ℕ → List FEx → List Rule → Except String (List Rule)
  | 0, _, _ => .error "fuel"
  | _ + 1, [], rules => .ok rules
  | fuel + 1, e0 :: restPos, rules =>
    let pos_examples := e0 :: restPos
    let head_pred := e0.1
    let pos_cover := pos_examples.filter (fun e => e.1 == head_pred)
    let neg_cover := neg.filter (fun e => e.1 == head_pred)
    match innerLoop background predicates (predicates.length + 1) [] pos_cover neg_cover with
    | .error msg => .error msg
    | .ok body =>
      let covered := pos_examples.filter (fun e =>
        e.1 == head_pred && body.all (fun lit => decide ((lit.1, e.2) ∈ background)))
      outerLoop neg background predicates fuel
        (pos_examples.filter (fun e => !covered.contains e))
        (rules ++ [(head_pred, "X", body)])

/-- `learn_rules(pos, neg, background, predicates)`.  The Python `predicates`
argument is a set iterated in unspecified order; the embedding takes the
iteration order as an explicit list. -/
noncomputable def learn_rules (pos neg : List FEx) (background : Finset FEx)
    (predicates : List String) : Except String (List Rule) :=
  outerLoop neg background predicates (pos.length + 1) pos []

/-- The background facts of the example usage block of `PropInduction.py`. -/
def bgDemo : Finset FEx :=
  {("Bird", "tweety"), ("Bird", "polly"), ("Bird", "tweety2"),
    ("Mammal", "leo"), ("Mammal", "max")}

end Foil

namespace PropDeduction

lemma mem_resolve {ci cj r : Clause} :
    r ∈ resolve ci cj ↔ ∃ l, l ∈ ci ∧ negate l ∈ cj ∧ r = (ci ∪ cj) \ {l, negate l} := by
  simp only [resolve, Finset.mem_image, Finset.mem_filter]
  constructor
  · rintro ⟨l, ⟨hl, hnl⟩, rfl⟩
    exact ⟨l, hl, hnl, rfl⟩
  · rintro ⟨l, hl, hnl, rfl⟩
    exact ⟨l, ⟨hl, hnl⟩, rfl⟩

lemma mem_resolventsOf {cs : Finset Clause} {r : Clause} :
    r ∈ resolventsOf cs ↔ ∃ ci ∈ cs, ∃ cj ∈ cs, ci ≠ cj ∧ r ∈ resolve ci cj := by
  simp only [resolventsOf, Finset.mem_biUnion]
  constructor
  · rintro ⟨ci, hci, cj, hcj, hr⟩
    by_cases h : ci = cj
    · simp [h] at hr
    · rw [if_neg h] at hr
      exact ⟨ci, hci, cj, hcj, h, hr⟩
  · rintro ⟨ci, hci, cj, hcj, hne, hr⟩
    exact ⟨ci, hci, cj, hcj, by rw [if_neg hne]; exact hr⟩

lemma resolve_subset {ci cj r : Clause} (h : r ∈ resolve ci cj) : r ⊆ ci ∪ cj := by
  obtain ⟨l, -, -, rfl⟩ := mem_resolve.mp h
  exact Finset.sdiff_subset

lemma subset_litUniv {cs : Finset Clause} {c : Clause} (hc : c ∈ cs) : c ⊆ litUniv cs :=
  fun _l hl => Finset.mem_biUnion.mpr ⟨c, hc, hl⟩

lemma resolventsOf_subset_litUniv {cs : Finset Clause} {r : Clause}
    (hr : r ∈ resolventsOf cs) : r ⊆ litUniv cs := by
  obtain ⟨ci, hci, cj, hcj, -, hres⟩ := mem_resolventsOf.mp hr
  exact (resolve_subset hres).trans
    (Finset.union_subset (subset_litUniv hci) (subset_litUniv hcj))

lemma litUniv_union_resolvents (cs : Finset Clause) :
    litUniv (cs ∪ resolventsOf cs) = litUniv cs := by
  apply Finset.Subset.antisymm
  · intro l hl
    obtain ⟨c, hc, hlc⟩ := Finset.mem_biUnion.mp hl
    rcases Finset.mem_union.mp hc with h | h
    · exact subset_litUniv h hlc
    · exact resolventsOf_subset_litUniv h hlc
  · intro l hl
    obtain ⟨c, hc, hlc⟩ := Finset.mem_biUnion.mp hl
    exact Finset.mem_biUnion.mpr ⟨c, Finset.mem_union_left _ hc, hlc⟩

lemma subset_powerset_litUniv (cs : Finset Clause) :
    cs ⊆ (litUniv cs).powerset :=
  fun _c hc => Finset.mem_powerset.mpr (subset_litUniv hc)

lemma derivable_mono {cs cs' : Finset Clause} (hsub : cs ⊆ cs') {c : Clause}
    (h : Derivable cs c) : Derivable cs' c := by
  induction h with
  | base hc => exact .base (hsub hc)
  | step _ _ hne hr ih1 ih2 => exact .step ih1 ih2 hne hr

lemma derivesEmpty_mono {cs cs' : Finset Clause} (hsub : cs ⊆ cs')
    (h : DerivesEmpty cs) : DerivesEmpty cs' := by
  obtain ⟨ci, cj, h1, h2, hne, hr⟩ := h
  exact ⟨ci, cj, derivable_mono hsub h1, derivable_mono hsub h2, hne, hr⟩

lemma saturateF_true_derivesEmpty :
    ∀ (fuel : ℕ) (cs cs₀ : Finset Clause), (∀ c ∈ cs, Derivable cs₀ c) →
      saturateF fuel cs = true → DerivesEmpty cs₀ := by
  intro fuel
  induction fuel with
  | zero => intro cs cs₀ _ h; simp [saturateF] at h
  | succ fuel ih =>
    intro cs cs₀ hder h
    simp only [saturateF] at h
    by_cases hemp : (∅ : Clause) ∈ resolventsOf cs
    · obtain ⟨ci, hci, cj, hcj, hne, hr⟩ := mem_resolventsOf.mp hemp
      exact ⟨ci, cj, hder ci hci, hder cj hcj, hne, hr⟩
    · rw [if_neg hemp] at h
      by_cases hsat : resolventsOf cs ⊆ cs
      · rw [if_pos hsat] at h; exact absurd h (by simp)
      · rw [if_neg hsat] at h
        refine ih _ cs₀ ?_ h
        intro c hc
        rcases Finset.mem_union.mp hc with hc | hc
        · exact hder c hc
        · obtain ⟨ci, hci, cj, hcj, hne, hr⟩ := mem_resolventsOf.mp hc
          exact .step (hder ci hci) (hder cj hcj) hne hr

lemma derivable_mem_closed {C cs : Finset Clause} (hclosed : resolventsOf C ⊆ C)
    (hsub : cs ⊆ C) {c : Clause} (h : Derivable cs c) : c ∈ C := by
  induction h with
  | base hc => exact hsub hc
  | step _ _ hne hr ih1 ih2 =>
    exact hclosed (mem_resolventsOf.mpr ⟨_, ih1, _, ih2, hne, hr⟩)

lemma saturateF_false_closed :
    ∀ (fuel : ℕ) (cs : Finset Clause), satMeasure cs ≤ fuel →
      saturateF fuel cs = false →
      ∃ C : Finset Clause, cs ⊆ C ∧ resolventsOf C ⊆ C ∧ (∅ : Clause) ∉ resolventsOf C := by
  intro fuel
  induction fuel with
  | zero =>
    intro cs hm _
    exfalso
    have hcard : cs.card ≤ (litUniv cs).powerset.card :=
      Finset.card_le_card (subset_powerset_litUniv cs)
    have : 1 ≤ satMeasure cs := by
      unfold satMeasure; omega
    omega
  | succ fuel ih =>
    intro cs hm h
    simp only [saturateF] at h
    by_cases hemp : (∅ : Clause) ∈ resolventsOf cs
    · rw [if_pos hemp] at h; exact absurd h (by simp)
    · rw [if_neg hemp] at h
      by_cases hsat : resolventsOf cs ⊆ cs
      · exact ⟨cs, Finset.Subset.refl cs, hsat, hemp⟩
      · rw [if_neg hsat] at h
        have hmeas : satMeasure (cs ∪ resolventsOf cs) ≤ fuel := by
          have hssub : cs ⊂ cs ∪ resolventsOf cs := by
            refine Finset.ssubset_iff_of_subset Finset.subset_union_left |>.mpr ?_
            obtain ⟨r, hr, hrn⟩ := Finset.not_subset.mp hsat
            exact ⟨r, Finset.mem_union_right _ hr, hrn⟩
          have hcardlt : cs.card < (cs ∪ resolventsOf cs).card :=
            Finset.card_lt_card hssub
          have hcardle : (cs ∪ resolventsOf cs).card ≤ (litUniv cs).powerset.card := by
            have := subset_powerset_litUniv (cs ∪ resolventsOf cs)
            rw [litUniv_union_resolvents] at this
            exact Finset.card_le_card this
          unfold satMeasure at hm ⊢
          rw [litUniv_union_resolvents]
          omega
        obtain ⟨C, hsub, hcl, hne⟩ := ih _ hmeas h
        exact ⟨C, Finset.subset_union_left.trans hsub, hcl, hne⟩

/-- With adequate fuel, the saturation loop answers `true` exactly when the
empty clause is derivable as a resolvent of two distinct derivable clauses. -/
lemma saturateF_eq_true_iff {fuel : ℕ} {cs : Finset Clause} (hm : satMeasure cs ≤ fuel) :
    saturateF fuel cs = true ↔ DerivesEmpty cs := by
  constructor
  · exact saturateF_true_derivesEmpty fuel cs cs (fun c hc => .base hc)
  · intro hd
    by_contra h
    have hfalse : saturateF fuel cs = false := by
      cases hsat : saturateF fuel cs
      · rfl
      · exact absurd hsat h
    obtain ⟨C, hsub, hcl, hne⟩ := saturateF_false_closed fuel cs hm hfalse
    obtain ⟨ci, cj, h1, h2, hneq, hr⟩ := hd
    exact hne (mem_resolventsOf.mpr
      ⟨ci, derivable_mem_closed hcl hsub h1, cj, derivable_mem_closed hcl hsub h2, hneq, hr⟩)

lemma resolution_entails_iff (kb : Finset Clause) (query : DLit) :
    resolution_entails kb query = true ↔ DerivesEmpty (insert {negate query} kb) :=
  saturateF_eq_true_iff (Nat.le_refl _)

lemma negate_eq_cons {c : Char} (hc : c ≠ '~') (rest : List Char) :
    negate (c :: rest) = '~' :: c :: rest := by
  unfold negate
  split
  · rename_i heq
    exact absurd (List.cons.injEq .. ▸ heq).1 hc
  · rfl

/-- C9: `negate` is an involution on literals.  The spec's data model defines
a literal as an atom name with at most one negation marker, "never
double-negated in canonical form"; `CanonicalLit` encodes exactly that
domain, on which `negate(negate(l)) == l` holds. -/
theorem negate_negate (l : DLit) (h : CanonicalLit l) : negate (negate l) = l := by
  cases l with
  | nil => rfl
  | cons c rest =>
    by_cases hc : c = '~'
    · subst hc
      cases rest with
      | nil => rfl
      | cons c2 rest2 =>
        have hc2 : c2 ≠ '~' := by
          intro h2
          subst h2
          exact h rfl
        rw [show negate ('~' :: c2 :: rest2) = c2 :: rest2 from rfl, negate_eq_cons hc2]
    · rw [negate_eq_cons hc]
      rfl

/-- C9 witness: the involution at the concrete literal `~A`. -/
theorem negate_negate_witness : negate (negate ['~', 'A']) = ['~', 'A'] :=
  negate_negate ['~', 'A'] (by decide)

/-- C1 counterexample: resolving `{A, B}` with `{~A, ~B}` on the
complementary pair `(A, ~A)` produces the resolvent `{B, ~B}`, which contains
the literal `B` together with its complement `~B` — refuting the claim that
resolvents never contain a literal and its complement simultaneously. -/
theorem resolve_complement_counterexample :
    ({['B'], ['~', 'B']} : Clause) ∈ resolve {['A'], ['B']} {['~', 'A'], ['~', 'B']} ∧
    (['B'] : DLit) ∈ ({['B'], ['~', 'B']} : Clause) ∧
    negate ['B'] ∈ ({['B'], ['~', 'B']} : Clause) := by
  decide

/-- C1 amended: every resolvent returned by `resolve(ci, cj)` equals
`(ci ∪ cj)` minus exactly one complementary pair `{l, negate l}` with
`l ∈ ci` and `negate l ∈ cj`, and conversely every such pair contributes its
resolvent; the resolvent may however still contain other complementary
literal pairs. -/
theorem resolve_resolvents (ci cj r : Clause) :
    r ∈ resolve ci cj ↔ ∃ l, l ∈ ci ∧ negate l ∈ cj ∧ r = (ci ∪ cj) \ {l, negate l} :=
  mem_resolve

set_option maxHeartbeats 4000000 in
set_option maxRecDepth 100000 in
/-- C4: on the knowledge base `{A∨B, ¬A∨C, ¬B∨C, ¬C∨D}`, `resolution_entails`
answers `true` for the query `D` and `false` for the query `A`. -/
theorem resolution_entails_example :
    resolution_entails
      {({['A'], ['B']} : Clause), {['~', 'A'], ['C']}, {['~', 'B'], ['C']},
        {['~', 'C'], ['D']}} ['D'] = true ∧
    resolution_entails
      {({['A'], ['B']} : Clause), {['~', 'A'], ['C']}, {['~', 'B'], ['C']},
        {['~', 'C'], ['D']}} ['A'] = false := by
  constructor
  · decide
  · decide

/-- C5: entailment is monotone — adding clauses to a knowledge base never
turns an entailed query into a non-entailed one. -/
theorem resolution_entails_monotone (kb kb2 : Finset Clause) (q : DLit)
    (h : resolution_entails kb q = true) :
    resolution_entails (kb ∪ kb2) q = true := by
  rw [resolution_entails_iff] at h ⊢
  exact derivesEmpty_mono (Finset.insert_subset_insert _ Finset.subset_union_left) h

/-- C5 witness: `{{A}} ⊨ A`, hence `{{A}} ∪ {{B}} ⊨ A`. -/
theorem resolution_entails_monotone_witness :
    resolution_entails (({ {['A']} } : Finset Clause) ∪ { {['B']} }) ['A'] = true :=
  resolution_entails_monotone { {['A']} } { {['B']} } ['A'] (by decide)

end PropDeduction

namespace Horn

lemma pruneMin_antichain {l : List (Finset String)} {E1 E2 : Finset String}
    (h1 : E1 ∈ pruneMin l) (h2 : E2 ∈ pruneMin l) : ¬ E1 ⊂ E2 := by
  intro hss
  simp only [pruneMin, List.mem_filter, Bool.not_eq_true', List.any_eq_false,
    decide_eq_true_eq] at h1 h2
  exact h2.2 E1 h1.1 hss

lemma abduceF_shape (kb : List HornClause) (ab : Finset String) (fuel : ℕ)
    (goal : String) (seen : Finset String) :
    abduceF kb ab fuel goal seen = [] ∨
      ∃ l, abduceF kb ab fuel goal seen = pruneMin l := by
  cases fuel with
  | zero => exact .inl rfl
  | succ fuel =>
    by_cases h : goal ∈ seen
    · exact .inl (by simp [abduceF, h])
    · exact .inr ⟨_, by rw [abduceF, if_neg h]⟩

lemma pruneMin_of_empty_mem {l : List (Finset String)}
    (h : (∅ : Finset String) ∈ l) :
    pruneMin l ≠ [] ∧ ∀ e ∈ pruneMin l, e = ∅ := by
  constructor
  · have hmem : (∅ : Finset String) ∈ pruneMin l := by
      simp only [pruneMin, List.mem_filter, Bool.not_eq_true', List.any_eq_false,
        decide_eq_true_eq]
      exact ⟨h, fun o _ ho => absurd ho (Finset.not_ssubset_empty o)⟩
    intro hnil
    rw [hnil] at hmem
    exact absurd hmem (List.not_mem_nil _)
  · intro e he
    simp only [pruneMin, List.mem_filter, Bool.not_eq_true', List.any_eq_false,
      decide_eq_true_eq] at he
    by_contra hne
    exact he.2 ∅ h (Finset.empty_ssubset.mpr (Finset.nonempty_iff_ne_empty.mpr hne))

/-- C6: on the knowledge base `r :- p, q. | r :- s. | p :- t. | q.` with
abducibles `{s, t}`, `abduce` returns exactly the two explanations `{t}` and
`{s}` (each once, nothing else). -/
theorem abduce_example :
    abduce "r" [⟨"r", ["p", "q"]⟩, ⟨"r", ["s"]⟩, ⟨"p", ["t"]⟩, ⟨"q", []⟩] {"s", "t"} =
      [{"t"}, {"s"}] := by
  decide

/-- C7: the explanation list returned by `abduce` is an antichain under
strict set inclusion: no returned explanation is a strict subset of another
returned one.  (This holds because the final pruning step of `abduce` keeps
exactly the candidates with no strict subset among the candidates.) -/
theorem abduce_antichain (goal : String) (kb : List HornClause) (ab : Finset String)
    (E1 E2 : Finset String) (h1 : E1 ∈ abduce goal kb ab) (h2 : E2 ∈ abduce goal kb ab)
    (_hne : E1 ≠ E2) : ¬ E1 ⊂ E2 ∧ ¬ E2 ⊂ E1 := by
  rcases abduceF_shape kb ab ((insert goal (atomsOf kb)).card + 1) goal ∅ with h | ⟨l, hl⟩
  · rw [abduce, h] at h1
    exact absurd h1 (List.not_mem_nil E1)
  · rw [abduce, hl] at h1 h2
    exact ⟨pruneMin_antichain h1 h2, pruneMin_antichain h2 h1⟩

/-- C7 witness: the two explanations of the C6 example are incomparable. -/
theorem abduce_antichain_witness :
    ¬ ({"t"} : Finset String) ⊂ {"s"} ∧ ¬ ({"s"} : Finset String) ⊂ {"t"} :=
  abduce_antichain "r" [⟨"r", ["p", "q"]⟩, ⟨"r", ["s"]⟩, ⟨"p", ["t"]⟩, ⟨"q", []⟩]
    {"s", "t"} {"t"} {"s"} (by decide) (by decide) (by decide)

/-- C10 counterexample: with the knowledge base containing the fact `q.`
twice, `abduce` returns the empty explanation twice — a two-element list, not
the claimed one-element list `[∅]`. -/
theorem abduce_fact_counterexample :
    abduce "q" [⟨"q", []⟩, ⟨"q", []⟩] ∅ = [∅, ∅] ∧
    ([∅, ∅] : List (Finset String)) ≠ [∅] := by
  constructor
  · decide
  · decide

/-- C10 amended: for a goal that is the head of a Horn clause with empty
body, `abduce` returns the empty set as an explanation, and minimality
pruning removes every candidate other than the empty set — the result is a
nonempty list all of whose elements are the empty explanation (one copy per
derivation of the goal from facts alone; in particular a goal that is both a
fact and an abducible yields `[∅]`, not `[{goal}]`). -/
theorem abduce_fact_explanations (goal : String) (kb : List HornClause)
    (ab : Finset String) (h : ∃ c ∈ kb, c.head = goal ∧ c.body = []) :
    abduce goal kb ab ≠ [] ∧ ∀ e ∈ abduce goal kb ab, e = ∅ := by
  obtain ⟨c, hc, hhead, hbody⟩ := h
  rw [abduce, abduceF, if_neg (Finset.not_mem_empty goal)]
  apply pruneMin_of_empty_mem
  refine List.mem_append_right _ (List.mem_flatten.mpr ⟨[∅], ?_, List.mem_singleton_self ∅⟩)
  refine List.mem_map.mpr ⟨c, hc, ?_⟩
  rw [if_pos hhead, hbody]
  simp [listProd]

lemma foldl_min_le_init {α : Type} [LinearOrder α] :
    ∀ (l : List α) (a : α), l.foldl min a ≤ a
  | [], a => le_refl a
  | x :: xs, a => (foldl_min_le_init xs (min a x)).trans (min_le_left a x)

lemma foldl_min_le_of_mem {α : Type} [LinearOrder α] :
    ∀ (l : List α) (a x : α), x ∈ l → l.foldl min a ≤ x
  | [], _, x, hx => absurd hx (List.not_mem_nil x)
  | y :: ys, a, x, hx => by
    rcases List.mem_cons.mp hx with rfl | hx2
    · exact (foldl_min_le_init ys (min a x)).trans (min_le_right a x)
    · exact foldl_min_le_of_mem ys (min a y) x hx2

lemma foldl_min_attained {α : Type} [LinearOrder α] :
    ∀ (l : List α) (a : α), l.foldl min a = a ∨ l.foldl min a ∈ l
  | [], _ => .inl rfl
  | x :: xs, a => by
    rw [List.foldl_cons]
    rcases foldl_min_attained xs (min a x) with h | h
    · rcases min_choice a x with h2 | h2
      · exact .inl (by rw [h, h2])
      · refine .inr ?_
        rw [h, h2]
        exact List.mem_cons_self x xs
    · exact .inr (List.mem_cons_of_mem x h)

lemma totalCost_eq_top {cost : String → Option ℚ} {e : Finset String} {a : String}
    (ha : a ∈ e) (hnone : cost a = none) : totalCost cost e = ⊤ := by
  rw [totalCost, ← Finset.add_sum_erase e (atomCost cost) ha]
  rw [show atomCost cost a = ⊤ by rw [atomCost, hnone]]
  exact WithTop.top_add _

lemma abduce_min_cost_mem (goal : String) (kb : List HornClause) (ab : Finset String)
    (cost : String → Option ℚ) (e : Finset String) :
    e ∈ abduce_min_cost goal kb ab cost ↔
      e ∈ abduce goal kb ab ∧
        ∀ e2 ∈ abduce goal kb ab, totalCost cost e ≤ totalCost cost e2 := by
  unfold abduce_min_cost
  cases hall : abduce goal kb ab with
  | nil => simp
  | cons e0 rest0 =>
    simp only [List.map_cons]
    have hfold : ∀ z : WithTop ℚ,
        (rest0.map (fun x => (totalCost cost x, x))).foldl (fun m p => min m p.1) z =
          (rest0.map (fun x => totalCost cost x)).foldl min z := by
      intro z
      rw [List.foldl_map, List.foldl_map]
    have hmc : ∀ e2 ∈ e0 :: rest0,
        (rest0.map (fun x => (totalCost cost x, x))).foldl (fun m p => min m p.1)
          (totalCost cost e0) ≤ totalCost cost e2 := by
      intro e2 he2
      rw [hfold]
      rcases List.mem_cons.mp he2 with rfl | hr
      · exact foldl_min_le_init _ _
      · exact foldl_min_le_of_mem _ _ _ (List.mem_map.mpr ⟨e2, hr, rfl⟩)
    have hatt : ∃ e3 ∈ e0 :: rest0,
        totalCost cost e3 =
          (rest0.map (fun x => (totalCost cost x, x))).foldl (fun m p => min m p.1)
            (totalCost cost e0) := by
      rw [hfold]
      rcases foldl_min_attained (rest0.map (fun x => totalCost cost x)) (totalCost cost e0)
        with h | h
      · exact ⟨e0, List.mem_cons_self e0 rest0, h.symm⟩
      · obtain ⟨e3, he3, he3v⟩ := List.mem_map.mp h
        exact ⟨e3, List.mem_cons_of_mem e0 he3, he3v⟩
    constructor
    · intro hmem
      obtain ⟨p, hp, hpe⟩ := List.mem_map.mp hmem
      rw [List.mem_filter] at hp
      obtain ⟨hpmem, hpmin⟩ := hp
      rw [decide_eq_true_eq] at hpmin
      have hpl : p ∈ (e0 :: rest0).map (fun x => (totalCost cost x, x)) := by
        rw [List.map_cons]
        exact hpmem
      obtain ⟨e3, he3, rfl⟩ := List.mem_map.mp hpl
      subst hpe
      refine ⟨he3, ?_⟩
      intro e2 he2
      have : totalCost cost e3 =
          (rest0.map (fun x => (totalCost cost x, x))).foldl (fun m p => min m p.1)
            (totalCost cost e0) := hpmin
      rw [this]
      exact hmc e2 he2
    · rintro ⟨hmem, hle⟩
      refine List.mem_map.mpr ⟨(totalCost cost e, e), ?_, rfl⟩
      rw [List.mem_filter, decide_eq_true_eq]
      refine ⟨?_, ?_⟩
      · show (totalCost cost e, e) ∈ (e0 :: rest0).map (fun x => (totalCost cost x, x))
        exact List.mem_map.mpr ⟨e, hmem, rfl⟩
      obtain ⟨e3, he3, he3v⟩ := hatt
      exact le_antisymm ((hle e3 he3).trans he3v.le) (hmc e hmem)

/-- C8: `abduce_min_cost` never fails on an explanation atom missing from the
cost map: such an atom scores as infinite cost (`⊤`); an explanation is
returned exactly when its total cost is minimal among all inclusion-minimal
explanations (all ties included), so an explanation containing a missing
atom is returned only when every explanation has infinite total cost. -/
theorem abduce_min_cost_spec (goal : String) (kb : List HornClause) (ab : Finset String)
    (cost : String → Option ℚ) :
    (∀ a, cost a = none → atomCost cost a = ⊤) ∧
    (∀ e, e ∈ abduce_min_cost goal kb ab cost ↔
        e ∈ abduce goal kb ab ∧
          ∀ e2 ∈ abduce goal kb ab, totalCost cost e ≤ totalCost cost e2) ∧
    (∀ e a, e ∈ abduce_min_cost goal kb ab cost → a ∈ e → cost a = none →
        ∀ e2 ∈ abduce goal kb ab, totalCost cost e2 = ⊤) := by
  refine ⟨fun a ha => by rw [atomCost, ha], abduce_min_cost_mem goal kb ab cost, ?_⟩
  intro e a hmem hae hnone e2 he2
  have hle := ((abduce_min_cost_mem goal kb ab cost e).mp hmem).2 e2 he2
  rw [totalCost_eq_top hae hnone] at hle
  exact top_le_iff.mp hle

/-- C8 witness: with costs `{s ↦ 5, t ↦ 1}` on the C6 knowledge base, the
cheapest explanation `{t}` is returned. -/
theorem abduce_min_cost_spec_witness :
    ({"t"} : Finset String) ∈ abduce_min_cost "r"
      [⟨"r", ["p", "q"]⟩, ⟨"r", ["s"]⟩, ⟨"p", ["t"]⟩, ⟨"q", []⟩] {"s", "t"}
      (fun a => if a = "s" then some 5 else if a = "t" then some 1 else none) :=
  ((abduce_min_cost_spec "r" [⟨"r", ["p", "q"]⟩, ⟨"r", ["s"]⟩, ⟨"p", ["t"]⟩, ⟨"q", []⟩]
      {"s", "t"}
      (fun a => if a = "s" then some 5 else if a = "t" then some 1 else none)).2.1
    {"t"}).mpr ⟨by decide, by
      intro e2 he2
      rw [show abduce "r" [⟨"r", ["p", "q"]⟩, ⟨"r", ["s"]⟩, ⟨"p", ["t"]⟩, ⟨"q", []⟩]
          {"s", "t"} = [{"t"}, {"s"}] from by decide] at he2
      rcases List.mem_cons.mp he2 with rfl | he2
      · exact le_refl _
      · rw [List.mem_singleton] at he2
        subst he2
        have hts : ¬ ("t" = "s") := by decide
        norm_num [totalCost, atomCost, Finset.sum_singleton, hts]⟩

/-- C10 witness: a goal that is simultaneously a fact and an abducible gets a
nonempty explanation list consisting only of the empty explanation. -/
theorem abduce_fact_explanations_witness :
    abduce "q" [⟨"q", []⟩] {"q"} ≠ [] ∧ ∀ e ∈ abduce "q" [⟨"q", []⟩] {"q"}, e = ∅ :=
  abduce_fact_explanations "q" [⟨"q", []⟩] {"q"}
    ⟨⟨"q", []⟩, List.mem_singleton_self _, rfl, rfl⟩

end Horn

namespace Foil

/-- C2: `foil_gain` returns `0` in the two guarded cases (`p = 0` or
`p1 + n1 = 0`), but it is NOT total on the inputs that arise during
`learn_rules`: at `p = 3, n = 2, p1 = 0, n1 = 2` — the counts produced in the
`learn_rules` demo when scoring the candidate literal `Mammal(X)` — the
guard passes and `math.log2(p1 / (p1 + n1)) = log2(0)` raises
`ValueError: math domain error`.  The spec's claim of totality is the
intent; the code's guard misses the case `p1 = 0 ∧ n1 > 0`. -/
theorem foil_gain_domain_error :
    foil_gain 0 5 1 1 = .ok 0 ∧ foil_gain 3 2 0 0 = .ok 0 ∧
    foil_gain 3 2 0 2 = .error "math domain error" :=
  ⟨rfl, rfl, rfl⟩

/-- C3: on the example of the source — background
`{Bird(tweety), Bird(polly), Bird(tweety2), Mammal(leo), Mammal(max)}`,
positives `Fly(tweety), Fly(polly), Fly(tweety2)`, negatives
`Fly(leo), Fly(max)`, predicates `{Bird, Mammal}` — `learn_rules` does NOT
return the single rule `Fly(X) :- Bird(X)`: while scoring the candidate
`Mammal(X)` in the first literal-selection round it calls
`foil_gain 3 2 0 2`, which raises `ValueError: math domain error`
(`log2(0/2)`), whatever order the predicate set is iterated in. -/
theorem learn_rules_demo_crash :
    learn_rules [("Fly", "tweety"), ("Fly", "polly"), ("Fly", "tweety2")]
      [("Fly", "leo"), ("Fly", "max")] bgDemo ["Bird", "Mammal"] =
        .error "math domain error" ∧
    learn_rules [("Fly", "tweety"), ("Fly", "polly"), ("Fly", "tweety2")]
      [("Fly", "leo"), ("Fly", "max")] bgDemo ["Mammal", "Bird"] =
        .error "math domain error" :=
  ⟨rfl, rfl⟩

end Foil
